import Mathlib

/-!
Verification development for the PGGTyper (parallel pangenome genotyper) sources
`src/uniquekmers.cpp` and `src/pggtyper.cpp`.

The development shallowly embeds:

* the per-variant descriptor `UniqueKmers` (uniquekmers.cpp) together with the
  auxiliary value types `CopyNumber`, `KmerPath` and `CopyNumberAssignment`
  (their implementation files are not part of the two sources; they are
  modelled from the specification's data-model section);
* the per-chromosome driver and the final output loop of `main`
  (pggtyper.cpp): the argument tuple handed to the HMM constructor, the
  fraction handed to the count corrector, and the chromosome-keyed result
  map whose iteration order determines the output order.

C++ `std::map` containers are modelled as association lists kept sorted by
key, which reproduces both lookup (`find` / `at` / `operator[]`) and the
in-order iteration that the original code relies on.  Exceptions are
modelled with `Except`; the error type distinguishes the two
`runtime_error` messages thrown by `uniquekmers.cpp` from the
`std::out_of_range` raised by `std::map::at`.
-/

deriving instance DecidableEq for Except

/-- Modelled from the spec: `CopyNumber` (its implementation file is not among
the given sources) is a triple (p0, p1, p2) of nonnegative likelihoods of
observing the k-mer 0, 1 or 2 times; no normalisation is required.  Only its
role as an opaque payload of `kmer_to_copynumber` matters here. -/
structure CopyNumber where
  p0 : ℚ
  p1 : ℚ
  p2 : ℚ
deriving DecidableEq

/-- Modelled from the spec: `KmerPath` (its implementation file is not among
the given sources) is a dense bitset keyed by k-mer position with operations
set(position), get(position) and nr_kmers().  It is represented by the finite
set of positions whose bit is 1. -/
structure KmerPath where
  positions : Finset ℕ
deriving DecidableEq

/-- The C++ default constructor KmerPath(): all bits zero. -/
def KmerPath.empty : KmerPath := ⟨∅⟩

/-- KmerPath::set_position: set the bit at the given position. -/
def KmerPath.set_position (kp : KmerPath) (i : ℕ) : KmerPath :=
  ⟨insert i kp.positions⟩

/-- KmerPath::get_position: 1 if the bit at the given position is set, else 0. -/
def KmerPath.get_position (kp : KmerPath) (i : ℕ) : ℕ :=
  if i ∈ kp.positions then 1 else 0

/-- KmerPath::nr_kmers: number of set bits. -/
def KmerPath.nr_kmers (kp : KmerPath) : ℕ := kp.positions.card

/-- Modelled from the spec: `CopyNumberAssignment` (its implementation file is
not among the given sources) records, per k-mer position, an expected copy
count; it is produced by KmerPath addition. -/
structure CopyNumberAssignment where
  get : ℕ → ℕ

/-- Modelled from the spec: KmerPath addition a + b produces the
CopyNumberAssignment whose entry at position i is a.get(i) + b.get(i). -/
def KmerPath.plus (a b : KmerPath) : CopyNumberAssignment :=
  ⟨fun i => a.get_position i + b.get_position i⟩

/-- Lookup in an association list, as std::map::find / std::map::at
(returns none where C++ find yields end() and at throws). -/
def mapFind {α : Type} (k : ℕ) : List (ℕ × α) → Option α
  | [] => none
  | (k', v) :: t => if k = k' then some v else mapFind k t

/-- std::map assignment map[k] = v (and, combined with a prior lookup,
map[k].mutate): stores v under k, keeping the keys sorted ascending, which is
the order std::map iterates in.  An existing entry for k is overwritten. -/
def mapAssign {α : Type} (k : ℕ) (v : α) : List (ℕ × α) → List (ℕ × α)
  | [] => [(k, v)]
  | (k', v') :: t =>
    if k < k' then (k, v) :: (k', v') :: t
    else if k = k' then (k, v) :: t
    else (k', v') :: mapAssign k v t

/-- The state of a UniqueKmers object (uniquekmers.cpp).  The two std::map
members are sorted association lists; `current_index` is the number K of
k-mers inserted so far. -/
structure UniqueKmers where
  variant_pos : ℕ
  current_index : ℕ
  kmer_to_copynumber : List CopyNumber
  alleles : List (ℕ × KmerPath)
  path_to_allele : List (ℕ × ℕ)
  local_coverage : ℚ
deriving DecidableEq

/-- The constructor UniqueKmers(variant_position): current_index = 0,
local_coverage = 0, empty containers. -/
def UniqueKmers.init (variant_position : ℕ) : UniqueKmers :=
  ⟨variant_position, 0, [], [], [], 0⟩

/-- UniqueKmers::get_variant_position. -/
def UniqueKmers.get_variant_position (u : UniqueKmers) : ℕ := u.variant_pos

/-- UniqueKmers::insert_empty_allele: alleles[allele_id] = KmerPath()
(overwrites any existing path for that allele). -/
def UniqueKmers.insert_empty_allele (u : UniqueKmers) (allele_id : ℕ) : UniqueKmers :=
  { u with alleles := mapAssign allele_id KmerPath.empty u.alleles }

/-- UniqueKmers::insert_path: path_to_allele[path_id] = allele_id. -/
def UniqueKmers.insert_path (u : UniqueKmers) (path_id allele_id : ℕ) : UniqueKmers :=
  { u with path_to_allele := mapAssign path_id allele_id u.path_to_allele }

/-- UniqueKmers::insert_kmer: append cn to kmer_to_copynumber, execute
alleles[a].set_position(index) for each listed allele a (std::map operator[]
default-constructs a KmerPath for an absent key), then increment
current_index.  The C++ code performs no check and cannot fail. -/
def UniqueKmers.insert_kmer (u : UniqueKmers) (cn : CopyNumber) (kmer_alleles : List ℕ) :
    UniqueKmers :=
  let index := u.current_index
  { u with
    kmer_to_copynumber := u.kmer_to_copynumber ++ [cn]
    alleles := kmer_alleles.foldl
      (fun m a => mapAssign a (((mapFind a m).getD KmerPath.empty).set_position index) m)
      u.alleles
    current_index := u.current_index + 1 }

/-- The exceptions reachable from uniquekmers.cpp: the two explicit
runtime_error throws, and std::out_of_range from std::map::at on a missing
key. -/
inductive UKError
  | pathNotExist (p : ℕ)
  | kmerNotExist (i : ℕ)
  | atOutOfRange
deriving DecidableEq

/-- UniqueKmers::kmer_on_path: error if the path index is absent from
path_to_allele; otherwise, if kmer_index < current_index, return
alleles.at(allele_id).get_position(kmer_index) > 0 (where the map at-lookup
itself throws std::out_of_range if the bound allele was never registered);
otherwise error. -/
def UniqueKmers.kmer_on_path (u : UniqueKmers) (kmer_index path_index : ℕ) :
    Except UKError Bool :=
  match mapFind path_index u.path_to_allele with
  | none => .error (.pathNotExist path_index)
  | some allele_id =>
    if kmer_index < u.current_index then
      match mapFind allele_id u.alleles with
      | none => .error .atOutOfRange
      | some kp => .ok (decide (0 < kp.get_position kmer_index))
    else .error (.kmerNotExist kmer_index)

/-- UniqueKmers::combine_paths: alleles.at(allele_id1) + alleles.at(allele_id2);
either at-lookup throws std::out_of_range when its key is absent. -/
def UniqueKmers.combine_paths (u : UniqueKmers) (allele_id1 allele_id2 : ℕ) :
    Except UKError CopyNumberAssignment :=
  match mapFind allele_id1 u.alleles, mapFind allele_id2 u.alleles with
  | some p1, some p2 => .ok (p1.plus p2)
  | _, _ => .error .atOutOfRange

/-- UniqueKmers::get_copynumber_of: kmer_to_copynumber[kmer_index] when
kmer_index < current_index, else a runtime_error.  The vector access is
unchecked in C++; the default value is never used because the vector length
equals current_index on every reachable state. -/
def UniqueKmers.get_copynumber_of (u : UniqueKmers) (kmer_index : ℕ) :
    Except UKError CopyNumber :=
  if kmer_index < u.current_index then
    .ok (u.kmer_to_copynumber.getD kmer_index ⟨0, 0, 0⟩)
  else .error (.kmerNotExist kmer_index)

/-- UniqueKmers::size: returns current_index. -/
def UniqueKmers.size (u : UniqueKmers) : ℕ := u.current_index

/-- UniqueKmers::get_nr_paths. -/
def UniqueKmers.get_nr_paths (u : UniqueKmers) : ℕ := u.path_to_allele.length

/-- UniqueKmers::get_path_ids: with a filter, iterate the filter in its own
order and keep the entries found in path_to_allele; without a filter,
iterate path_to_allele in std::map order (ascending keys).  The two output
vectors p and a are modelled as one list of pairs. -/
def UniqueKmers.get_path_ids (u : UniqueKmers) (only_include : Option (List ℕ)) :
    List (ℕ × ℕ) :=
  match only_include with
  | some f => f.filterMap (fun p => (mapFind p u.path_to_allele).map (fun a => (p, a)))
  | none => u.path_to_allele

/-- UniqueKmers::get_allele_ids: the allele keys in std::map order. -/
def UniqueKmers.get_allele_ids (u : UniqueKmers) : List ℕ := u.alleles.map Prod.fst

/-- UniqueKmers::set_coverage. -/
def UniqueKmers.set_coverage (u : UniqueKmers) (c : ℚ) : UniqueKmers :=
  { u with local_coverage := c }

/-- UniqueKmers::get_coverage. -/
def UniqueKmers.get_coverage (u : UniqueKmers) : ℚ := u.local_coverage

/-- UniqueKmers::kmers_on_alleles: per allele, the number of its k-mers. -/
def UniqueKmers.kmers_on_alleles (u : UniqueKmers) : List (ℕ × ℕ) :=
  u.alleles.map (fun pa => (pa.1, pa.2.nr_kmers))

/-- The mutating operations of the UniqueKmers interface, used to quantify
over every sequence of operations performed on a descriptor. -/
inductive UKOp
  | insertEmptyAllele (a : ℕ)
  | insertPath (p a : ℕ)
  | insertKmer (cn : CopyNumber) (kmer_alleles : List ℕ)
  | setCoverage (c : ℚ)

/-- Apply one operation to a descriptor. -/
def UKOp.apply (u : UniqueKmers) : UKOp → UniqueKmers
  | .insertEmptyAllele a => u.insert_empty_allele a
  | .insertPath p a => u.insert_path p a
  | .insertKmer cn kmer_alleles => u.insert_kmer cn kmer_alleles
  | .setCoverage c => u.set_coverage c

/-- Run a sequence of operations from a given state. -/
def runOps (u : UniqueKmers) (ops : List UKOp) : UniqueKmers :=
  ops.foldl UKOp.apply u

/-- Number of insert_kmer calls in an operation sequence. -/
def countInsertKmer : List UKOp → ℕ
  | [] => 0
  | .insertKmer _ _ :: t => countInsertKmer t + 1
  | _ :: t => countInsertKmer t

/-- The argument tuple of the HMM constructor, in the order of the call in
run_genotyping (pggtyper.cpp): HMM(&unique_kmers, run_genotyping,
run_phasing, distance_multiplier, use_uniform_transitions, effective_N).
The unique_kmers pointer is omitted; the distance multiplier is exact
rational (the C++ double literals in question are representable). -/
structure HMMArgs where
  run_genotyping : Bool
  run_phasing : Bool
  distance_multiplier : ℚ
  use_uniform_transitions : Bool
  effective_N : ℕ
deriving DecidableEq

/-- The HMM construction performed by the per-chromosome driver
run_genotyping (pggtyper.cpp line 36):
HMM hmm(&unique_kmers, !only_phasing, !only_genotyping, 1.26, false,
effective_N).  The literal 1.26 is passed unconditionally. -/
def run_genotyping_hmm_args (only_genotyping only_phasing : Bool) (effective_N : ℕ) :
    HMMArgs :=
  { run_genotyping := !only_phasing
    run_phasing := !only_genotyping
    distance_multiplier := 1.26
    use_uniform_transitions := false
    effective_N := effective_N }

/-- The small-k correction fraction main passes to correct_read_counts
(pggtyper.cpp line 169): the C++ expression 1/10.0, i.e. the exact double
value one tenth. -/
def main_correction_fraction : ℚ := 1 / 10.0

/-- std::map<std::string, V>::insert as used on Results::result
(pggtyper.cpp line 40): place the key at its sorted position (std::map of
strings orders keys lexicographically; chromosome names are ASCII, so
comparing the character lists agrees with the byte comparison of
std::string); when the key is already present, insert leaves the map
unchanged.  Only the keys are tracked, since the claims concern the
iteration order and the GenotypingResult payloads never influence it. -/
def resultsInsert (k : String) : List String → List String
  | [] => [k]
  | h :: t =>
    if k.data < h.data then k :: h :: t
    else if k = h then h :: t
    else h :: resultsInsert k t

/-- The key set of results.result after all workers have joined, given the
order in which the workers reached their insert (each insert runs under
result_mutex, so the final map is the left fold of the single insertions). -/
def finalResultKeys (completion_order : List String) : List String :=
  completion_order.foldl (fun m c => resultsInsert c m) []

/-- The chromosome order of the final write loop of main (pggtyper.cpp
lines 205-214): it iterates results.result from begin() to end(), i.e. in
ascending key order of the std::map. -/
def writeOrder (completion_order : List String) : List String :=
  finalResultKeys completion_order

theorem mapFind_mapAssign_self {α : Type} (k : ℕ) (v : α) (m : List (ℕ × α)) :
    mapFind k (mapAssign k v m) = some v := by
  induction m with
  | nil => simp [mapAssign, mapFind]
  | cons h t ih =>
    obtain ⟨k', v'⟩ := h
    by_cases h1 : k < k'
    · simp [mapAssign, h1, mapFind]
    · by_cases h2 : k = k'
      · simp [mapAssign, h1, h2, mapFind]
      · simp [mapAssign, h1, h2, mapFind, ih]

theorem mapFind_mapAssign_ne {α : Type} (k k' : ℕ) (v : α) (m : List (ℕ × α))
    (h : k ≠ k') : mapFind k (mapAssign k' v m) = mapFind k m := by
  induction m with
  | nil => simp [mapAssign, mapFind, h]
  | cons hd t ih =>
    obtain ⟨k'', v''⟩ := hd
    by_cases h1 : k' < k''
    · simp only [mapAssign, if_pos h1]
      simp [mapFind, h]
    · by_cases h2 : k' = k''
      · subst h2
        simp [mapAssign, mapFind, h1, h]
      · by_cases h3 : k = k'' <;> simp [mapAssign, mapFind, h1, h2, h3, ih]

theorem mem_mapAssign {α : Type} {x : ℕ × α} {k : ℕ} {v : α} {m : List (ℕ × α)}
    (hx : x ∈ mapAssign k v m) : x = (k, v) ∨ x ∈ m := by
  induction m with
  | nil => simpa [mapAssign] using hx
  | cons hd t ih =>
    obtain ⟨k', v'⟩ := hd
    by_cases h1 : k < k'
    · simp only [mapAssign, if_pos h1, List.mem_cons] at hx
      rcases hx with h | h | h
      · exact Or.inl h
      · exact Or.inr (by simp [h])
      · exact Or.inr (by simp [h])
    · by_cases h2 : k = k'
      · simp only [mapAssign, if_neg h1, if_pos h2, List.mem_cons] at hx
        rcases hx with h | h
        · exact Or.inl h
        · exact Or.inr (by simp [h])
      · simp only [mapAssign, if_neg h1, if_neg h2, List.mem_cons] at hx
        rcases hx with h | h
        · exact Or.inr (by simp [h])
        · rcases ih h with h' | h'
          · exact Or.inl h'
          · exact Or.inr (by simp [h'])

theorem KmerPath.get_position_pos_iff (kp : KmerPath) (i : ℕ) :
    0 < kp.get_position i ↔ i ∈ kp.positions := by
  by_cases h : i ∈ kp.positions <;> simp [KmerPath.get_position, h]

theorem KmerPath.get_position_le_one (kp : KmerPath) (i : ℕ) :
    kp.get_position i ≤ 1 := by
  by_cases h : i ∈ kp.positions <;> simp [KmerPath.get_position, h]

theorem insert_kmer_fold_mono (idx : ℕ) (as : List ℕ) :
    ∀ (m : List (ℕ × KmerPath)) (b : ℕ) (kp : KmerPath),
    mapFind b m = some kp → idx ∈ kp.positions →
    ∃ kp', mapFind b (as.foldl
        (fun m a => mapAssign a (((mapFind a m).getD KmerPath.empty).set_position idx) m)
        m) = some kp' ∧ idx ∈ kp'.positions := by
  induction as with
  | nil => exact fun m b kp h1 h2 => ⟨kp, h1, h2⟩
  | cons a t ih =>
    intro m b kp h1 h2
    rw [List.foldl_cons]
    by_cases hab : b = a
    · subst hab
      refine ih _ b (((mapFind b m).getD KmerPath.empty).set_position idx)
        (mapFind_mapAssign_self b _ m) ?_
      rw [h1]
      simp [KmerPath.set_position]
    · exact ih _ b kp (by rw [mapFind_mapAssign_ne b a _ m hab]; exact h1) h2

theorem insert_kmer_fold_sets (idx : ℕ) (as : List ℕ) :
    ∀ (m : List (ℕ × KmerPath)) (a : ℕ), a ∈ as →
    ∃ kp, mapFind a (as.foldl
        (fun m a => mapAssign a (((mapFind a m).getD KmerPath.empty).set_position idx) m)
        m) = some kp ∧ idx ∈ kp.positions := by
  induction as with
  | nil => intro m a ha; simp at ha
  | cons hd t ih =>
    intro m a ha
    rw [List.foldl_cons]
    rcases List.mem_cons.mp ha with rfl | ha'
    · exact insert_kmer_fold_mono idx t _ a _ (mapFind_mapAssign_self a _ m)
        (by simp [KmerPath.set_position])
    · exact ih _ a ha'

/-- C2 (counterexample): insert_kmer does not fail when handed an allele id
that was never registered: on a fresh descriptor, inserting a k-mer for the
unregistered allele 3 appends the k-mer (size becomes 1, the CopyNumber is
stored) and silently creates allele 3 with the k-mer marked, because C++
std::map operator[] default-constructs the missing entry. -/
theorem insert_kmer_unregistered_allele_succeeds :
    mapFind 3 (UniqueKmers.init 0).alleles = none ∧
    ((UniqueKmers.init 0).insert_kmer ⟨0, 1, 0⟩ [3]).size = 1 ∧
    ((UniqueKmers.init 0).insert_kmer ⟨0, 1, 0⟩ [3]).kmer_to_copynumber = [⟨0, 1, 0⟩] ∧
    mapFind 3 ((UniqueKmers.init 0).insert_kmer ⟨0, 1, 0⟩ [3]).alleles
      = some (KmerPath.empty.set_position 0) := by
  decide

/-- C2 (amended): insert_kmer never fails.  For every descriptor state, every
CopyNumber and every allele list, the call appends the k-mer (the size grows
by one and the CopyNumber vector gets cn appended), and every listed allele
(registered beforehand or not) afterwards has a KmerPath with the new k-mer
position set, an unregistered one being default-created on the fly. -/
theorem insert_kmer_total_appends (u : UniqueKmers) (cn : CopyNumber)
    (kmer_alleles : List ℕ) :
    (u.insert_kmer cn kmer_alleles).size = u.size + 1 ∧
    (u.insert_kmer cn kmer_alleles).kmer_to_copynumber = u.kmer_to_copynumber ++ [cn] ∧
    ∀ a ∈ kmer_alleles, ∃ kp,
      mapFind a (u.insert_kmer cn kmer_alleles).alleles = some kp ∧
      0 < kp.get_position u.current_index := by
  refine ⟨rfl, rfl, ?_⟩
  intro a ha
  obtain ⟨kp, h1, h2⟩ := insert_kmer_fold_sets u.current_index kmer_alleles u.alleles a ha
  exact ⟨kp, h1, (KmerPath.get_position_pos_iff kp u.current_index).mpr h2⟩

/-- Witness for the amended C2 theorem at a concrete input. -/
theorem insert_kmer_total_appends_witness :
    ∃ kp, mapFind 3 ((UniqueKmers.init 0).insert_kmer ⟨0, 1, 0⟩ [3]).alleles = some kp ∧
      0 < kp.get_position 0 :=
  (insert_kmer_total_appends (UniqueKmers.init 0) ⟨0, 1, 0⟩ [3]).2.2 3 (by decide)

theorem runOps_counts (ops : List UKOp) :
    ∀ u : UniqueKmers,
    (runOps u ops).current_index = u.current_index + countInsertKmer ops ∧
    (runOps u ops).kmer_to_copynumber.length
      = u.kmer_to_copynumber.length + countInsertKmer ops := by
  induction ops with
  | nil => intro u; simp [runOps, countInsertKmer]
  | cons op t ih =>
    intro u
    have step : (UKOp.apply u op).current_index
          = u.current_index + (match op with | .insertKmer _ _ => 1 | _ => 0) ∧
        (UKOp.apply u op).kmer_to_copynumber.length
          = u.kmer_to_copynumber.length + (match op with | .insertKmer _ _ => 1 | _ => 0) := by
      cases op <;>
        simp [UKOp.apply, UniqueKmers.insert_empty_allele, UniqueKmers.insert_path,
          UniqueKmers.insert_kmer, UniqueKmers.set_coverage]
    have hr : runOps u (op :: t) = runOps (UKOp.apply u op) t := by
      simp [runOps]
    obtain ⟨s1, s2⟩ := step
    obtain ⟨i1, i2⟩ := ih (UKOp.apply u op)
    rw [hr]
    constructor
    · rw [i1, s1]
      cases op <;> simp [countInsertKmer] <;> omega
    · rw [i2, s2]
      cases op <;> simp [countInsertKmer] <;> omega

/-- C8: for every sequence of interface operations performed on a fresh
descriptor, size() (= current_index = K) equals the number of insert_kmer
calls performed, and kmer_to_copynumber holds exactly that many CopyNumber
entries. -/
theorem size_eq_number_of_insert_kmer (variant_position : ℕ) (ops : List UKOp) :
    (runOps (UniqueKmers.init variant_position) ops).size = countInsertKmer ops ∧
    (runOps (UniqueKmers.init variant_position) ops).kmer_to_copynumber.length
      = countInsertKmer ops := by
  obtain ⟨h1, h2⟩ := runOps_counts ops (UniqueKmers.init variant_position)
  exact ⟨by simpa [UniqueKmers.size, UniqueKmers.init] using h1,
    by simpa [UniqueKmers.init] using h2⟩

/-- C1 (counterexample): in phasing-only mode (only_phasing set,
only_genotyping unset, the default effective population size), the
per-chromosome driver does not construct the HMM with distance_multiplier
1.0: the call site passes the literal 1.26 unconditionally. -/
theorem distance_multiplier_phasing_only_not_one :
    (run_genotyping_hmm_args false true 25000).distance_multiplier ≠ 1.0 := by
  simp only [run_genotyping_hmm_args]
  norm_num

/-- C1 (amended): the per-chromosome driver constructs the HMM with
distance_multiplier 1.26 in every mode, including phasing-only; the flags
only influence the run_genotyping / run_phasing arguments. -/
theorem run_genotyping_distance_multiplier (only_genotyping only_phasing : Bool)
    (effective_N : ℕ) :
    (run_genotyping_hmm_args only_genotyping only_phasing effective_N).distance_multiplier
        = 1.26 ∧
    (run_genotyping_hmm_args only_genotyping only_phasing effective_N).run_genotyping
        = !only_phasing ∧
    (run_genotyping_hmm_args only_genotyping only_phasing effective_N).run_phasing
        = !only_genotyping :=
  ⟨rfl, rfl, rfl⟩

/-- C9: the fraction literal that main passes to correct_read_counts is
1/10.0, which equals one tenth exactly. -/
theorem main_correction_fraction_eq_tenth :
    main_correction_fraction = 0.1 ∧ main_correction_fraction = 1 / 10 := by
  constructor <;> norm_num [main_correction_fraction]

/-- C4: for every descriptor, kmer index i below the number K of inserted
k-mers and path p registered in path_to_allele with bound allele a,
kmer_on_path(i, p) returns true exactly when the KmerPath stored for a (the
empty path if a is absent, in which case kmer_on_path raises instead of
returning true) has a positive entry at position i. -/
theorem kmer_on_path_iff_get_position_pos (u : UniqueKmers) (i p a : ℕ)
    (hi : i < u.current_index) (hp : mapFind p u.path_to_allele = some a) :
    u.kmer_on_path i p = .ok true ↔
      0 < ((mapFind a u.alleles).getD KmerPath.empty).get_position i := by
  unfold UniqueKmers.kmer_on_path
  rw [hp]
  cases hfa : mapFind a u.alleles with
  | none =>
    simp [hi, hfa, KmerPath.empty, KmerPath.get_position]
  | some kp =>
    simp [hi, hfa]

/-- Witness for C4: a descriptor with one k-mer on allele 0 and path 2 bound
to allele 0; kmer_on_path(0, 2) is true, matching get_position. -/
theorem kmer_on_path_iff_get_position_pos_witness :
    (((UniqueKmers.init 5).insert_path 2 0).insert_kmer ⟨0, 1, 0⟩ [0]).kmer_on_path 0 2
        = .ok true ↔
      0 < ((mapFind 0 (((UniqueKmers.init 5).insert_path 2 0).insert_kmer
        ⟨0, 1, 0⟩ [0]).alleles).getD KmerPath.empty).get_position 0 :=
  kmer_on_path_iff_get_position_pos
    (((UniqueKmers.init 5).insert_path 2 0).insert_kmer ⟨0, 1, 0⟩ [0]) 0 2 0
    (by decide) (by decide)

/-- C5: for alleles a and b registered in the descriptor with KmerPaths pa
and pb and any k-mer position i below K, combine_paths(a, b) succeeds with
the elementwise sum of pa and pb, whose entry at i is
pa.get(i) + pb.get(i) and lies in {0, 1, 2}. -/
theorem combine_paths_get_eq_sum (u : UniqueKmers) (a b i : ℕ) (pa pb : KmerPath)
    (_hi : i < u.current_index)
    (ha : mapFind a u.alleles = some pa) (hb : mapFind b u.alleles = some pb) :
    u.combine_paths a b = .ok (pa.plus pb) ∧
    (pa.plus pb).get i = pa.get_position i + pb.get_position i ∧
    ((pa.plus pb).get i = 0 ∨ (pa.plus pb).get i = 1 ∨ (pa.plus pb).get i = 2) := by
  refine ⟨by unfold UniqueKmers.combine_paths; rw [ha, hb], rfl, ?_⟩
  have h1 := KmerPath.get_position_le_one pa i
  have h2 := KmerPath.get_position_le_one pb i
  have : (pa.plus pb).get i = pa.get_position i + pb.get_position i := rfl
  omega

/-- Witness for C5: a descriptor holding one k-mer present on both alleles
1 and 2; the combined copy number at position 0 is 1 + 1 = 2. -/
theorem combine_paths_get_eq_sum_witness :
    ((UniqueKmers.init 0).insert_kmer ⟨0, 0, 1⟩ [1, 2]).combine_paths 1 2
        = .ok ((KmerPath.empty.set_position 0).plus (KmerPath.empty.set_position 0)) ∧
    ((KmerPath.empty.set_position 0).plus (KmerPath.empty.set_position 0)).get 0
        = (KmerPath.empty.set_position 0).get_position 0
          + (KmerPath.empty.set_position 0).get_position 0 ∧
    (((KmerPath.empty.set_position 0).plus (KmerPath.empty.set_position 0)).get 0 = 0 ∨
      ((KmerPath.empty.set_position 0).plus (KmerPath.empty.set_position 0)).get 0 = 1 ∨
      ((KmerPath.empty.set_position 0).plus (KmerPath.empty.set_position 0)).get 0 = 2) :=
  combine_paths_get_eq_sum ((UniqueKmers.init 0).insert_kmer ⟨0, 0, 1⟩ [1, 2]) 1 2 0
    (KmerPath.empty.set_position 0) (KmerPath.empty.set_position 0)
    (by decide) (by decide) (by decide)

/-- C6 (counterexample): kmer_on_path can throw even on in-range arguments.
On a descriptor whose path 0 is bound to allele 7 while allele 7 was never
registered (insert_path performs no check), the call kmer_on_path(0, 0) has
a valid kmer index (0 < K = 1) and a registered path, yet it fails — and
with the std::out_of_range of std::map::at, not with one of the two
"does not exist" runtime errors. -/
theorem kmer_on_path_in_range_throws_on_dangling_allele :
    0 < (((UniqueKmers.init 0).insert_path 0 7).insert_kmer ⟨0, 0, 1⟩ [3]).current_index ∧
    mapFind 0 (((UniqueKmers.init 0).insert_path 0 7).insert_kmer
      ⟨0, 0, 1⟩ [3]).path_to_allele = some 7 ∧
    (((UniqueKmers.init 0).insert_path 0 7).insert_kmer ⟨0, 0, 1⟩ [3]).kmer_on_path 0 0
      = .error .atOutOfRange ∧
    UKError.atOutOfRange ≠ .kmerNotExist 0 ∧
    UKError.atOutOfRange ≠ .pathNotExist 0 := by
  decide

/-- C6 (amended): kmer_on_path and get_copynumber_of are bounds-checked: an
unregistered path index fails with the path-does-not-exist error; a kmer
index at or beyond K fails with the kmer-does-not-exist error; in-range
get_copynumber_of always succeeds; and in-range kmer_on_path succeeds
provided the allele bound to the path is registered in alleles (a dangling
binding instead raises the out-of-range map lookup). -/
theorem bounds_checked_lookups (u : UniqueKmers) (i p : ℕ) :
    (mapFind p u.path_to_allele = none →
      u.kmer_on_path i p = .error (.pathNotExist p)) ∧
    (∀ a, mapFind p u.path_to_allele = some a → u.current_index ≤ i →
      u.kmer_on_path i p = .error (.kmerNotExist i)) ∧
    (u.current_index ≤ i → u.get_copynumber_of i = .error (.kmerNotExist i)) ∧
    (i < u.current_index → ∃ cn, u.get_copynumber_of i = .ok cn) ∧
    (∀ a kp, mapFind p u.path_to_allele = some a → mapFind a u.alleles = some kp →
      i < u.current_index → ∃ b, u.kmer_on_path i p = .ok b) := by
  refine ⟨?_, ?_, ?_, ?_, ?_⟩
  · intro h
    unfold UniqueKmers.kmer_on_path
    rw [h]
  · intro a h hle
    unfold UniqueKmers.kmer_on_path
    rw [h]
    simp [Nat.not_lt.mpr hle]
  · intro hle
    unfold UniqueKmers.get_copynumber_of
    simp [Nat.not_lt.mpr hle]
  · intro hlt
    refine ⟨u.kmer_to_copynumber.getD i ⟨0, 0, 0⟩, ?_⟩
    unfold UniqueKmers.get_copynumber_of
    rw [if_pos hlt]
  · intro a kp hp ha hlt
    refine ⟨decide (0 < kp.get_position i), ?_⟩
    unfold UniqueKmers.kmer_on_path
    rw [hp]
    simp [hlt, ha]

/-- Witness for the amended C6 theorem: on a well-formed one-k-mer
descriptor, each of the five cases is exercised at concrete arguments. -/
theorem bounds_checked_lookups_witness :
    ((((UniqueKmers.init 3).insert_empty_allele 0).insert_path 0 0).insert_kmer
        ⟨1, 0, 0⟩ [0]).kmer_on_path 0 1 = .error (.pathNotExist 1) ∧
    ((((UniqueKmers.init 3).insert_empty_allele 0).insert_path 0 0).insert_kmer
        ⟨1, 0, 0⟩ [0]).kmer_on_path 5 0 = .error (.kmerNotExist 5) ∧
    ((((UniqueKmers.init 3).insert_empty_allele 0).insert_path 0 0).insert_kmer
        ⟨1, 0, 0⟩ [0]).get_copynumber_of 5 = .error (.kmerNotExist 5) ∧
    (∃ cn, ((((UniqueKmers.init 3).insert_empty_allele 0).insert_path 0 0).insert_kmer
        ⟨1, 0, 0⟩ [0]).get_copynumber_of 0 = .ok cn) ∧
    (∃ b, ((((UniqueKmers.init 3).insert_empty_allele 0).insert_path 0 0).insert_kmer
        ⟨1, 0, 0⟩ [0]).kmer_on_path 0 0 = .ok b) :=
  ⟨(bounds_checked_lookups _ 0 1).1 (by decide),
    (bounds_checked_lookups _ 5 0).2.1 0 (by decide) (by decide),
    (bounds_checked_lookups _ 5 0).2.2.1 (by decide),
    (bounds_checked_lookups _ 0 0).2.2.2.1 (by decide),
    (bounds_checked_lookups _ 0 0).2.2.2.2 0 (KmerPath.empty.set_position 0)
      (by decide) (by decide) (by decide)⟩

/-- C10: combine_paths raises the out-of-range map lookup exception exactly
when one of its two allele ids is unregistered in alleles; when both are
registered it succeeds and returns the elementwise sum of their KmerPaths. -/
theorem combine_paths_throws_iff_unregistered (u : UniqueKmers) (a b : ℕ) :
    ((mapFind a u.alleles = none ∨ mapFind b u.alleles = none) →
      u.combine_paths a b = .error .atOutOfRange) ∧
    (∀ pa pb, mapFind a u.alleles = some pa → mapFind b u.alleles = some pb →
      u.combine_paths a b = .ok (pa.plus pb)) := by
  constructor
  · intro h
    unfold UniqueKmers.combine_paths
    rcases h with h | h
    · rw [h]
    · rw [h]
      cases mapFind a u.alleles <;> rfl
  · intro pa pb ha hb
    unfold UniqueKmers.combine_paths
    rw [ha, hb]

/-- Witness for C10: allele 1 is registered, allele 9 is not; combining with
9 on either side raises, combining 1 with 1 succeeds. -/
theorem combine_paths_throws_iff_unregistered_witness :
    ((UniqueKmers.init 0).insert_kmer ⟨0, 0, 1⟩ [1]).combine_paths 1 9
        = .error .atOutOfRange ∧
    ((UniqueKmers.init 0).insert_kmer ⟨0, 0, 1⟩ [1]).combine_paths 1 1
        = .ok ((KmerPath.empty.set_position 0).plus (KmerPath.empty.set_position 0)) :=
  ⟨(combine_paths_throws_iff_unregistered ((UniqueKmers.init 0).insert_kmer
      ⟨0, 0, 1⟩ [1]) 1 9).1 (Or.inr (by decide)),
    (combine_paths_throws_iff_unregistered ((UniqueKmers.init 0).insert_kmer
      ⟨0, 0, 1⟩ [1]) 1 1).2 (KmerPath.empty.set_position 0)
      (KmerPath.empty.set_position 0) (by decide) (by decide)⟩

theorem mapAssign_keys_sorted {α : Type} (k : ℕ) (v : α) (m : List (ℕ × α))
    (hm : m.Pairwise (fun x y => x.1 < y.1)) :
    (mapAssign k v m).Pairwise (fun x y => x.1 < y.1) := by
  induction m with
  | nil => simp [mapAssign]
  | cons hd t ih =>
    obtain ⟨k', v'⟩ := hd
    rw [List.pairwise_cons] at hm
    obtain ⟨hhd, ht⟩ := hm
    by_cases h1 : k < k'
    · rw [mapAssign, if_pos h1, List.pairwise_cons]
      refine ⟨?_, List.pairwise_cons.mpr ⟨hhd, ht⟩⟩
      intro x hx
      rcases List.mem_cons.mp hx with rfl | hx'
      · exact h1
      · exact lt_trans h1 (hhd x hx')
    · by_cases h2 : k = k'
      · rw [mapAssign, if_neg h1, if_pos h2, List.pairwise_cons]
        exact ⟨fun x hx => h2 ▸ hhd x hx, ht⟩
      · rw [mapAssign, if_neg h1, if_neg h2, List.pairwise_cons]
        refine ⟨?_, ih ht⟩
        intro x hx
        rcases mem_mapAssign hx with rfl | hx'
        · simp only
          omega
        · exact hhd x hx'

theorem runOps_path_to_allele_sorted (ops : List UKOp) :
    ∀ u : UniqueKmers, u.path_to_allele.Pairwise (fun x y => x.1 < y.1) →
    (runOps u ops).path_to_allele.Pairwise (fun x y => x.1 < y.1) := by
  induction ops with
  | nil => intro u hu; simpa [runOps] using hu
  | cons op t ih =>
    intro u hu
    have hr : runOps u (op :: t) = runOps (UKOp.apply u op) t := by simp [runOps]
    rw [hr]
    apply ih
    cases op with
    | insertPath p a => exact mapAssign_keys_sorted p a u.path_to_allele hu
    | insertEmptyAllele a => exact hu
    | insertKmer cn kmer_alleles => exact hu
    | setCoverage c => exact hu

theorem get_path_ids_filtered_keys (u : UniqueKmers) (f : List ℕ) :
    (u.get_path_ids (some f)).map Prod.fst
      = f.filter (fun p => (mapFind p u.path_to_allele).isSome) := by
  induction f with
  | nil => simp [UniqueKmers.get_path_ids]
  | cons p t ih =>
    simp only [UniqueKmers.get_path_ids] at ih ⊢
    cases hp : mapFind p u.path_to_allele with
    | none => simpa [List.filterMap_cons, hp, List.filter_cons] using ih
    | some a => simpa [List.filterMap_cons, hp, List.filter_cons] using ih

/-- C7 (counterexample): with paths 2 and 5 registered and the filter given
in descending order [5, 2], get_path_ids returns the filter's order [5, 2],
not the ascending panel order. -/
theorem get_path_ids_filtered_order_follows_filter :
    (((UniqueKmers.init 0).insert_path 2 0).insert_path 5 1).get_path_ids (some [5, 2])
        = [(5, 1), (2, 0)] ∧
    ¬ (([(5, 1), (2, 0)] : List (ℕ × ℕ)).map Prod.fst).Pairwise (· < ·) := by
  decide

/-- C7 (amended): on every reachable descriptor, the unfiltered
get_path_ids lists the registered paths with their alleles in ascending
path-id order; the filtered call returns exactly the filter's paths that
are registered, with their bound alleles, but in the order the filter lists
them — which coincides with panel order exactly when the filter itself is
ascending. -/
theorem get_path_ids_spec (variant_position : ℕ) (ops : List UKOp) (f : List ℕ) :
    (((runOps (UniqueKmers.init variant_position) ops).get_path_ids none).map
        Prod.fst).Pairwise (· < ·) ∧
    (∀ p a, (p, a) ∈ (runOps (UniqueKmers.init variant_position) ops).get_path_ids (some f)
      ↔ p ∈ f ∧
        mapFind p (runOps (UniqueKmers.init variant_position) ops).path_to_allele = some a) ∧
    ((runOps (UniqueKmers.init variant_position) ops).get_path_ids (some f)).map Prod.fst
      = f.filter (fun p =>
          (mapFind p (runOps (UniqueKmers.init variant_position) ops).path_to_allele).isSome) ∧
    (f.Pairwise (· < ·) →
      (((runOps (UniqueKmers.init variant_position) ops).get_path_ids (some f)).map
        Prod.fst).Pairwise (· < ·)) := by
  refine ⟨?_, ?_, get_path_ids_filtered_keys _ f, ?_⟩
  · have hs := runOps_path_to_allele_sorted ops (UniqueKmers.init variant_position)
      (by simp [UniqueKmers.init])
    rw [List.pairwise_map]
    exact hs
  · intro p a
    simp only [UniqueKmers.get_path_ids, List.mem_filterMap, Option.map_eq_some']
    constructor
    · rintro ⟨x, hx, b, hb, heq⟩
      obtain ⟨rfl, rfl⟩ := Prod.mk.injEq .. ▸ heq
      exact ⟨hx, hb⟩
    · rintro ⟨hp, ha⟩
      exact ⟨p, hp, a, ha, rfl⟩
  · intro hf
    rw [get_path_ids_filtered_keys _ f]
    exact hf.filter _

/-- Witness for the amended C7 theorem at a concrete descriptor and an
ascending filter. -/
theorem get_path_ids_spec_witness :
    (((runOps (UniqueKmers.init 0) [UKOp.insertPath 2 0, UKOp.insertPath 5 1]).get_path_ids
      (some [2, 5])).map Prod.fst).Pairwise (· < ·) :=
  (get_path_ids_spec 0 [UKOp.insertPath 2 0, UKOp.insertPath 5 1] [2, 5]).2.2.2 (by decide)

theorem mem_resultsInsert {x k : String} {l : List String}
    (hx : x ∈ resultsInsert k l) : x = k ∨ x ∈ l := by
  induction l with
  | nil => simpa [resultsInsert] using hx
  | cons h t ih =>
    by_cases h1 : k.data < h.data
    · simp only [resultsInsert, if_pos h1, List.mem_cons] at hx
      rcases hx with h' | h' | h'
      · exact Or.inl h'
      · exact Or.inr (by simp [h'])
      · exact Or.inr (by simp [h'])
    · by_cases h2 : k = h
      · simp only [resultsInsert, if_neg h1, if_pos h2, List.mem_cons] at hx
        rcases hx with h' | h'
        · exact Or.inr (by simp [h', h2])
        · exact Or.inr (by simp [h'])
      · simp only [resultsInsert, if_neg h1, if_neg h2, List.mem_cons] at hx
        rcases hx with h' | h'
        · exact Or.inr (by simp [h'])
        · rcases ih h' with h'' | h''
          · exact Or.inl h''
          · exact Or.inr (by simp [h''])

theorem resultsInsert_sorted (k : String) (l : List String)
    (hs : l.Pairwise (fun a b => a.data < b.data)) :
    (resultsInsert k l).Pairwise (fun a b => a.data < b.data) := by
  induction l with
  | nil => simp [resultsInsert]
  | cons h t ih =>
    rw [List.pairwise_cons] at hs
    obtain ⟨hh, ht⟩ := hs
    by_cases h1 : k.data < h.data
    · rw [resultsInsert, if_pos h1, List.pairwise_cons]
      refine ⟨?_, List.pairwise_cons.mpr ⟨hh, ht⟩⟩
      intro x hx
      rcases List.mem_cons.mp hx with rfl | hx'
      · exact h1
      · exact lt_trans h1 (hh x hx')
    · by_cases h2 : k = h
      · rw [resultsInsert, if_neg h1, if_pos h2]
        exact List.pairwise_cons.mpr ⟨hh, ht⟩
      · rw [resultsInsert, if_neg h1, if_neg h2, List.pairwise_cons]
        refine ⟨?_, ih ht⟩
        intro x hx
        rcases mem_resultsInsert hx with rfl | hx'
        · rcases lt_trichotomy x.data h.data with h3 | h3 | h3
          · exact absurd h3 h1
          · exact absurd (by cases x; cases h; exact congrArg String.mk h3) h2
          · exact h3
        · exact hh x hx'

theorem resultsInsert_perm (k : String) (l : List String) (hk : k ∉ l) :
    (resultsInsert k l).Perm (k :: l) := by
  induction l with
  | nil => simp [resultsInsert]
  | cons h t ih =>
    have hne : k ≠ h := fun h' => hk (by simp [h'])
    have hnt : k ∉ t := fun h' => hk (by simp [h'])
    by_cases h1 : k.data < h.data
    · rw [resultsInsert, if_pos h1]
    · rw [resultsInsert, if_neg h1, if_neg hne]
      exact ((ih hnt).cons h).trans (List.Perm.swap k h t)

theorem finalResultKeys_fold (l : List String) :
    ∀ acc : List String, l.Nodup →
    acc.Pairwise (fun a b => a.data < b.data) → (∀ x ∈ l, x ∉ acc) →
    (l.foldl (fun m c => resultsInsert c m) acc).Pairwise (fun a b => a.data < b.data) ∧
    (l.foldl (fun m c => resultsInsert c m) acc).Perm (l ++ acc) := by
  induction l with
  | nil => intro acc _ hacc _; exact ⟨hacc, by simp⟩
  | cons h t ih =>
    intro acc hnd hacc hdisj
    rw [List.foldl_cons]
    have hmem : h ∉ acc := hdisj h (by simp)
    have hsort' := resultsInsert_sorted h acc hacc
    have hperm' := resultsInsert_perm h acc hmem
    have hnd' : t.Nodup := (List.nodup_cons.mp hnd).2
    have hne : h ∉ t := (List.nodup_cons.mp hnd).1
    have hdisj' : ∀ x ∈ t, x ∉ resultsInsert h acc := by
      intro x hx hmem'
      rcases mem_resultsInsert hmem' with rfl | hmem''
      · exact hne hx
      · exact hdisj x (by simp [hx]) hmem''
    obtain ⟨s1, p1⟩ := ih (resultsInsert h acc) hnd' hsort' hdisj'
    refine ⟨s1, ?_⟩
    have p2 : (t ++ resultsInsert h acc).Perm (t ++ h :: acc) :=
      List.Perm.append_left t hperm'
    have p3 : (t ++ h :: acc).Perm (h :: (t ++ acc)) := List.perm_middle
    exact p1.trans (p2.trans p3)

/-- C3 (counterexample): with the Variant Source declaring the chromosomes
in the order [chr2, chr1] (and whatever the worker completion order is —
here it coincides with the declared order), the final write loop hands the
blocks over in std::map key order [chr1, chr2], which differs from the
declared order. -/
theorem write_order_not_declared_order :
    writeOrder ["chr2", "chr1"] = ["chr1", "chr2"] ∧
    (["chr1", "chr2"] : List String) ≠ ["chr2", "chr1"] := by
  decide

/-- C3 (amended): the chromosome order of the final write loop is the
lexicographically sorted order of the declared chromosome names, independent
of the worker completion order: any completion order that is a permutation
of the declared (duplicate-free) list produces the same write order, which
is sorted and a permutation of the declared list; it equals the declared
order exactly when the declared list is itself sorted. -/
theorem write_order_sorted_of_perm (declared completion : List String)
    (hnd : declared.Nodup) (hperm : completion.Perm declared) :
    writeOrder completion = writeOrder declared ∧
    (writeOrder completion).Perm declared ∧
    (writeOrder completion).Pairwise (fun a b => a.data < b.data) ∧
    (declared.Pairwise (fun a b => a.data < b.data) →
      writeOrder completion = declared) := by
  haveI : IsAntisymm String (fun a b => a.data < b.data) :=
    ⟨fun a b h1 h2 => absurd h1 (lt_asymm h2)⟩
  have hndc : completion.Nodup := (hperm.nodup_iff).mpr hnd
  obtain ⟨sc, pc⟩ := finalResultKeys_fold completion [] hndc (by simp) (by simp)
  obtain ⟨sd, pd⟩ := finalResultKeys_fold declared [] hnd (by simp) (by simp)
  rw [List.append_nil] at pc pd
  have permc : (writeOrder completion).Perm declared := pc.trans hperm
  have permd : (writeOrder declared).Perm declared := pd
  refine ⟨?_, permc, sc, ?_⟩
  · exact List.eq_of_perm_of_sorted (permc.trans permd.symm) sc sd
  · intro hdecl
    exact List.eq_of_perm_of_sorted permc sc hdecl

/-- Witness for the amended C3 theorem: three chromosomes declared in sorted
order chr1, chr2, chr3 but completed by the workers in the order chr2,
chr3, chr1 are written in the declared order. -/
theorem write_order_sorted_of_perm_witness :
    writeOrder ["chr2", "chr3", "chr1"] = ["chr1", "chr2", "chr3"] :=
  (write_order_sorted_of_perm ["chr1", "chr2", "chr3"] ["chr2", "chr3", "chr1"]
    (by decide) (by decide)).2.2.2 (by decide)
